import Mathlib

/-!
Verification of the minimal-cost-shopping notebook
(`src/minimal-cost-shopping.ipynb`): a shallow embedding of its
parameter generator, problem encoder and result reporter, with theorems
settling the specification's claims.

The notebook builds the integer linear program

  minimize   C·x
  subject to Q·x ≥ m,  x ≥ 0,  x integer

from randomly generated data `C` (costs), `Q` (coverage matrix) and
`m` (targets), hands it to an external solver, and prints the status,
objective value, the solution cast to integers (`astype(int)`, which
truncates toward zero), the fulfilled requirements `Q.dot(x_opt)`
computed from the raw floating-point solution, the total goods count
(sum of the truncated entries) and the total cost `C.dot(x.value)`
computed from the raw solution.
-/

namespace Shopping

/-! ### Problem encoder, embedded from the source

Source cell:
  x = cvx.Variable(i, integer=True)
  objective = cvx.Minimize(C*x)
  constraints = [Q*x >= m, x >= 0]
  prob = cvx.Problem(objective, constraints)

The integer variable `x` becomes `x : Fin n → ℤ`; `C*x` is the dot
product, `Q*x` the matrix-vector product, and the two constraint
expressions become the conjunction `Feasible`. -/

/-- Objective of the encoded problem: the source's `cvx.Minimize(C*x)`. -/
def objective {n : ℕ} (cost : Fin n → ℤ) (x : Fin n → ℤ) : ℤ :=
  Matrix.dotProduct cost x

/-- Feasible set of the encoded problem: the source's
`constraints = [Q*x >= m, x >= 0]`. -/
def Feasible {m n : ℕ} (Q : Matrix (Fin m) (Fin n) ℤ) (target : Fin m → ℤ)
    (x : Fin n → ℤ) : Prop :=
  (∀ j, target j ≤ Q.mulVec x j) ∧ (∀ i, 0 ≤ x i)

instance {m n : ℕ} (Q : Matrix (Fin m) (Fin n) ℤ) (target : Fin m → ℤ)
    (x : Fin n → ℤ) : Decidable (Feasible Q target x) := by
  unfold Feasible; infer_instance

/-- The spec's wording of the objective: `sum_i(cost[i] * x[i])`. -/
def specObjective {n : ℕ} (cost : Fin n → ℤ) (x : Fin n → ℤ) : ℤ :=
  ∑ i, cost i * x i

/-- The spec's wording of the constraints: for every requirement j,
`sum_i(Q[j][i] * x[i]) >= target[j]`, and `x[i] >= 0` for every good i. -/
def SpecFeasible {m n : ℕ} (Q : Matrix (Fin m) (Fin n) ℤ) (target : Fin m → ℤ)
    (x : Fin n → ℤ) : Prop :=
  (∀ j, (∑ i, Q j i * x i) ≥ target j) ∧ (∀ i, x i ≥ 0)

/-- `v` is the optimal value of the encoded program: it is attained by a
feasible integer point and no feasible integer point does better. -/
def OptimalValue {m n : ℕ} (cost : Fin n → ℤ) (Q : Matrix (Fin m) (Fin n) ℤ)
    (target : Fin m → ℤ) (v : ℤ) : Prop :=
  IsLeast {c : ℤ | ∃ x, Feasible Q target x ∧ objective cost x = c} v

/-- C1: The encoder constructs exactly the program stated in the spec:
minimize `sum_i(cost[i] * x[i])` subject to `sum_i(Q[j][i] * x[i]) >= target[j]`
for every requirement j and `x[i] >= 0` for every good i, over integer x. -/
theorem encoder_matches_spec {m n : ℕ} (cost : Fin n → ℤ)
    (Q : Matrix (Fin m) (Fin n) ℤ) (target : Fin m → ℤ) (x : Fin n → ℤ) :
    objective cost x = specObjective cost x ∧
      (Feasible Q target x ↔ SpecFeasible Q target x) := by
  constructor
  · rfl
  · constructor
    · rintro ⟨hQ, hx⟩
      exact ⟨fun j => hQ j, fun i => hx i⟩
    · rintro ⟨hQ, hx⟩
      exact ⟨fun j => hQ j, fun i => hx i⟩

/-! ### The concrete example instance

The notebook's printed run: N=10 goods, M=5 requirements,
`C = [8 7 4 7 9 5 9 3 4 7]`, `m = [75 94 86 43 68]`, the 5×10 matrix `Q`
below, solver objective `300.0000001467965`, displayed
`x_optimal = [0] [0] [1] [0] [8] [25] [0] [29] [0] [0]` (the float
solution cast with `astype(int)`), and displayed fulfilled requirements
`m_optimal = [75. 94. 91. 43. 75.]` (computed from the raw float
solution). -/

/-- Example cost vector `C` from the notebook run. -/
def exCost : Fin 10 → ℤ := ![8,7,4,7,9,5,9,3,4,7]

/-- Example coverage matrix `Q` from the notebook run. -/
def exQ : Matrix (Fin 5) (Fin 10) ℤ :=
  !![0,0,2,1,2,1,2,1,0,2;
     0,2,0,1,1,1,1,2,2,1;
     1,1,2,1,1,2,0,1,1,0;
     2,1,0,1,2,1,0,0,1,0;
     2,0,2,2,2,1,1,1,1,2]

/-- Example requirement vector `m` from the notebook run. -/
def exTarget : Fin 5 → ℤ := ![75,94,86,43,68]

/-- The solution vector the notebook displays (`x_opt.astype(int)`). -/
def printedX : Fin 10 → ℤ := ![0,0,1,0,8,25,0,29,0,0]

/-- The true optimal integer solution of the example instance. -/
def optX : Fin 10 → ℤ := ![0,0,1,0,9,25,0,30,0,0]

/-- Scaled dual certificate: `dualV/6` is an optimal dual solution of the
LP relaxation, so `dualV ᵀ Q ≤ 6·cost` and `dualV · target = 1795`, giving
the lower bound `cost·x ≥ 1795/6` for every feasible `x ≥ 0`. -/
def dualV : Fin 5 → ℤ := ![11,3,1,14,0]

/-- Duality lower bound on the example instance: every feasible integer
point costs at least 300 (the LP bound 1795/6 ≈ 299.17 rounded up by
integrality of the objective). -/
lemma lower_bound (x : Fin 10 → ℤ) (hf : Feasible exQ exTarget x) :
    300 ≤ objective exCost x := by
  obtain ⟨hQ, hx⟩ := hf
  have hQ' : ∀ j, exTarget j ≤ ∑ i, exQ j i * x i := by
    intro j
    have := hQ j
    simpa [Matrix.mulVec, Matrix.dotProduct] using this
  have hv : ∀ j, (0:ℤ) ≤ dualV j := by decide
  have hc : ∀ i, (∑ j, dualV j * exQ j i) ≤ 6 * exCost i := by decide
  have e : (∑ j, dualV j * exTarget j) = 1795 := by decide
  have h1 : (1795:ℤ) ≤ ∑ j, dualV j * (∑ i, exQ j i * x i) := by
    rw [← e]
    exact Finset.sum_le_sum fun j _ => mul_le_mul_of_nonneg_left (hQ' j) (hv j)
  have h2 : ∑ j, dualV j * (∑ i, exQ j i * x i)
      = ∑ i, (∑ j, dualV j * exQ j i) * x i := by
    simp only [Finset.mul_sum, Finset.sum_mul]
    rw [Finset.sum_comm]
    exact Finset.sum_congr rfl fun i _ => Finset.sum_congr rfl fun j _ => by ring
  have h3 : ∑ i, (∑ j, dualV j * exQ j i) * x i ≤ ∑ i, (6 * exCost i) * x i :=
    Finset.sum_le_sum fun i _ => mul_le_mul_of_nonneg_right (hc i) (hx i)
  have h4 : ∑ i, (6 * exCost i) * x i = 6 * objective exCost x := by
    unfold objective Matrix.dotProduct
    rw [Finset.mul_sum]
    exact Finset.sum_congr rfl fun i _ => by ring
  omega

/-- C3 counterexample: the solution vector the notebook displays,
`x = [0,0,1,0,8,25,0,29,0,0]`, is not even feasible for the example
instance — its fulfilled totals are `[72,91,89,41,72]`, violating
requirements 0, 1 and 3, and its cost is 288, not 300. The displayed
vector is a truncation of the float solution, not the optimal solution. -/
theorem printedX_not_optimal :
    ¬ Feasible exQ exTarget printedX ∧
      exQ.mulVec printedX = ![72,91,89,41,72] ∧
      exQ.mulVec printedX ≠ ![75,94,91,43,75] ∧
      objective exCost printedX = 288 := by
  refine ⟨by decide, by decide, by decide, by decide⟩

/-- C3 (amended): on the example instance the optimal objective value is
exactly 300, attained at `x = [0,0,1,0,9,25,0,30,0,0]`, whose fulfilled
totals are `[75,94,91,43,75]`, each at least the corresponding target. -/
theorem example_optimum :
    OptimalValue exCost exQ exTarget 300 ∧
      Feasible exQ exTarget optX ∧
      objective exCost optX = 300 ∧
      exQ.mulVec optX = ![75,94,91,43,75] ∧
      ∀ j, exTarget j ≤ exQ.mulVec optX j := by
  refine ⟨⟨⟨optX, by decide, by decide⟩, ?_⟩, by decide, by decide, by decide, by decide⟩
  rintro c ⟨x, hf, rfl⟩
  exact lower_bound x hf

/-- C8: raising targets (pointwise, in particular raising a single
`target[j]`) while keeping `cost` and `Q` fixed never decreases the
optimal objective value: the feasible region only shrinks. -/
theorem target_monotone {m n : ℕ} (cost : Fin n → ℤ)
    (Q : Matrix (Fin m) (Fin n) ℤ) (target target' : Fin m → ℤ) (v v' : ℤ)
    (hle : ∀ j, target j ≤ target' j)
    (h : OptimalValue cost Q target v) (h' : OptimalValue cost Q target' v') :
    v ≤ v' := by
  obtain ⟨⟨x', hf', hobj'⟩, _⟩ := h'
  have hx' : Feasible Q target x' := ⟨fun j => le_trans (hle j) (hf'.1 j), hf'.2⟩
  exact h.2 ⟨x', hx', hobj'⟩

/-- One-good, one-requirement instance used to witness the optimality
theorems: a single good of cost 2 supplying one unit of the requirement. -/
def wCost : Fin 1 → ℤ := ![2]

/-- Coverage matrix of the witness instance. -/
def wQ : Matrix (Fin 1) (Fin 1) ℤ := !![1]

lemma wOpt (t : ℤ) (ht : 0 ≤ t) : OptimalValue wCost wQ ![t] (2 * t) := by
  constructor
  · refine ⟨![t], ⟨?_, ?_⟩, ?_⟩
    · intro j
      fin_cases j
      simp [wQ, Matrix.mulVec, Matrix.dotProduct]
    · intro i
      fin_cases i
      simpa using ht
    · simp [objective, wCost, Matrix.dotProduct, Fin.sum_univ_one]
  · rintro c ⟨x, ⟨hQ, hx⟩, rfl⟩
    have h0 := hQ 0
    simp only [wQ, Matrix.mulVec, Matrix.dotProduct, Fin.sum_univ_one,
      Matrix.cons_val_zero, Matrix.cons_val_fin_one, Matrix.of_apply,
      Matrix.cons_val', one_mul] at h0
    simp only [objective, wCost, Matrix.dotProduct, Fin.sum_univ_one,
      Matrix.cons_val_zero]
    linarith

/-- Witness for C8: on the one-good instance, raising the target from 0
to 3 raises the optimal value from 0 to 6, consistent with monotonicity. -/
theorem target_monotone_witness :
    OptimalValue wCost wQ ![0] 0 ∧ OptimalValue wCost wQ ![3] 6 ∧ (0:ℤ) ≤ 6 := by
  have h0 : OptimalValue wCost wQ ![0] 0 := by simpa using wOpt 0 le_rfl
  have h3 : OptimalValue wCost wQ ![3] 6 := by simpa using wOpt 3 (by norm_num)
  exact ⟨h0, h3,
    target_monotone wCost wQ ![0] ![3] 0 6 (by decide) h0 h3⟩

/-- C9: with the data-model invariant that every cost is positive, the
zero target vector makes `x = 0` optimal with objective value 0, and it
is the only feasible point of cost 0. -/
theorem zero_target_optimal {m n : ℕ} (cost : Fin n → ℤ)
    (Q : Matrix (Fin m) (Fin n) ℤ) (hpos : ∀ i, 0 < cost i) :
    OptimalValue cost Q (fun _ => 0) 0 ∧
      ∀ x, Feasible Q (fun _ => 0) x → objective cost x = 0 → x = 0 := by
  constructor
  · constructor
    · refine ⟨0, ⟨fun j => ?_, fun i => le_rfl⟩, ?_⟩
      · simp [Matrix.mulVec_zero]
      · simp [objective, Matrix.dotProduct_zero]
    · rintro c ⟨x, ⟨_, hx⟩, rfl⟩
      simp only [objective, Matrix.dotProduct]
      exact Finset.sum_nonneg fun i _ => mul_nonneg (hpos i).le (hx i)
  · rintro x ⟨_, hx⟩ hobj
    simp only [objective, Matrix.dotProduct] at hobj
    have hterm : ∀ i ∈ Finset.univ, cost i * x i = 0 :=
      (Finset.sum_eq_zero_iff_of_nonneg
        (fun i _ => mul_nonneg (hpos i).le (hx i))).mp hobj
    funext i
    have := hterm i (Finset.mem_univ i)
    have hne : cost i ≠ 0 := (hpos i).ne'
    exact (mul_eq_zero.mp this).resolve_left hne

/-- Witness for C9: the one-good instance with zero target has optimal
value 0, uniquely attained at the zero vector. -/
theorem zero_target_witness :
    OptimalValue wCost wQ (fun _ => 0) 0 ∧
      ∀ x, Feasible wQ (fun _ => 0) x → objective wCost x = 0 → x = 0 :=
  zero_target_optimal wCost wQ (by decide)

/-! ### The external solver and the result reporter

The solver is an external collaborator (`prob.solve()`); the spec treats
it as an opaque function returning a status from
`optimal | infeasible | unbounded | error` plus, when optimal, a numeric
solution vector and objective value. The solver's floating-point output
is embedded as exact rationals. -/

/-- Solver status enum, from the spec's external-interface contract. -/
inductive Status where
  | optimal
  | infeasible
  | unbounded
  | solverError
deriving DecidableEq

/-- What `prob.solve()` leaves behind: `prob.status`, `x.value` and the
returned objective value `sol`. -/
structure SolverOutput (n : ℕ) where
  status : Status
  xval : Fin n → ℚ
  objVal : ℚ

/-- Modelled from the spec: the solver collaborator's contract for the
integer-variable program. An `optimal` status means the solver found a
feasible integer solution, and the floating-point vector it reports
carries only small numerical noise around that solution (spec §7:
`0.99999998` instead of `1`) — each reported entry lies within 1/2 of
the true integer entry. -/
def SolverSound {m n : ℕ} (Q : Matrix (Fin m) (Fin n) ℤ) (target : Fin m → ℤ)
    (out : SolverOutput n) : Prop :=
  out.status = Status.optimal →
    ∃ z : Fin n → ℤ,
      (∀ i, |out.xval i - (z i : ℚ)| < 1/2) ∧ Feasible Q target z

/-- numpy's `astype(int)` on a float: truncation toward zero. -/
def ratTrunc (q : ℚ) : ℤ := if 0 ≤ q then ⌊q⌋ else ⌈q⌉

/-- The solution vector the notebook displays:
`x_opt.astype(int)` where `x_opt = x.value[np.newaxis].T`. -/
def displayedSolution {n : ℕ} (xval : Fin n → ℚ) : Fin n → ℤ :=
  fun i => ratTrunc (xval i)

/-- The printed total goods count: `x_opt.astype(int).sum()`. -/
def totalGoods {n : ℕ} (xval : Fin n → ℚ) : ℤ :=
  ∑ i, ratTrunc (xval i)

/-- The printed total cost: `C.dot(x.value)`, computed from the raw
(untruncated) solver solution. -/
def totalCost {n : ℕ} (cost : Fin n → ℤ) (xval : Fin n → ℚ) : ℚ :=
  ∑ i, (cost i : ℚ) * xval i

/-- The printed fulfilled requirements: `Q.dot(x_opt)`, computed from the
raw (untruncated) solver solution. -/
def fulfilled {m n : ℕ} (Q : Matrix (Fin m) (Fin n) ℤ) (xval : Fin n → ℚ) :
    Fin m → ℚ :=
  fun j => ∑ i, (Q j i : ℚ) * xval i

/-- What the reporting cell prints. -/
inductive Report where
  | success (objVal : ℚ) (sol : List ℤ)
  | failure (st : Status)
deriving DecidableEq

/-- The reporter: `if(prob.status == 'optimal')` print the objective
value and the `astype(int)`-cast solution, `else` print the failure
status. -/
def reportResult {n : ℕ} (st : Status) (objVal : ℚ) (xval : Fin n → ℚ) :
    Report :=
  if st = Status.optimal then
    Report.success objVal (List.ofFn fun i => ratTrunc (xval i))
  else
    Report.failure st

lemma ratTrunc_intCast (z : ℤ) : ratTrunc (z : ℚ) = z := by
  unfold ratTrunc
  split_ifs <;> simp

/-- A rational within distance 1/2 of an integer rounds to that integer. -/
lemma round_eq_of_abs_sub_lt_half {q : ℚ} {z : ℤ} (h : |q - (z : ℚ)| < 1/2) :
    round q = z := by
  rw [round_eq]
  rw [abs_sub_lt_iff] at h
  exact Int.floor_eq_iff.mpr ⟨by linarith [h.2], by linarith [h.1]⟩

/-- C2: whenever the (sound) solver reports `optimal`, rounding each
entry of its noisy floating-point solution to the nearest integer
yields a vector that still meets every requirement. -/
theorem solver_round_feasible {m n : ℕ} (Q : Matrix (Fin m) (Fin n) ℤ)
    (target : Fin m → ℤ) (out : SolverOutput n)
    (hs : SolverSound Q target out) (ho : out.status = Status.optimal) :
    ∀ j, target j ≤ ∑ i, Q j i * round (out.xval i) := by
  obtain ⟨z, hnoise, hfeas⟩ := hs ho
  intro j
  have hr : ∀ i, round (out.xval i) = z i :=
    fun i => round_eq_of_abs_sub_lt_half (hnoise i)
  have hj := hfeas.1 j
  simp only [Matrix.mulVec, Matrix.dotProduct] at hj
  calc target j ≤ ∑ i, Q j i * z i := hj
    _ = ∑ i, Q j i * round (out.xval i) :=
        Finset.sum_congr rfl fun i _ => by rw [hr i]

/-- Noisy solver output used to witness the rounding theorem: the
reported entry `0.9999999` sits just below the true solution entry 1. -/
def wOut : SolverOutput 1 := ⟨Status.optimal, ![9999999/10000000], 2⟩

lemma wOut_sound : SolverSound wQ ![1] wOut := by
  intro _
  refine ⟨![1], fun i => ?_, fun j => ?_, fun i => ?_⟩
  · rw [Fin.eq_zero i, abs_sub_lt_iff]
    simp only [wOut, Matrix.cons_val_zero]
    norm_num
  · rw [Fin.eq_zero j]
    simp [wQ, Matrix.mulVec, Matrix.dotProduct]
  · rw [Fin.eq_zero i]
    norm_num

/-- Witness for C2: the noisy optimal output `[0.9999999]` rounds to
`[1]`, which meets the single requirement. -/
theorem solver_round_feasible_witness :
    (![1] : Fin 1 → ℤ) 0 ≤ ∑ i, wQ 0 i * round (wOut.xval i) :=
  solver_round_feasible wQ ![1] wOut wOut_sound rfl 0

/-- C5: with an all-zero coverage matrix and positive targets the program
is infeasible, so a sound solver cannot report `optimal`, and the
reporter emits a failure report rather than a solution. -/
theorem zeroQ_not_optimal {m n : ℕ} (target : Fin m → ℤ)
    (out : SolverOutput n) (hm : 0 < m) (ht : ∀ j, 0 < target j)
    (hs : SolverSound (0 : Matrix (Fin m) (Fin n) ℤ) target out) :
    out.status ≠ Status.optimal ∧
      reportResult out.status out.objVal out.xval = Report.failure out.status := by
  have hne : out.status ≠ Status.optimal := by
    intro ho
    obtain ⟨z, _, hfeas⟩ := hs ho
    have hj := hfeas.1 ⟨0, hm⟩
    rw [Matrix.zero_mulVec] at hj
    exact absurd (lt_of_lt_of_le (ht ⟨0, hm⟩) hj) (by simp)
  exact ⟨hne, by simp [reportResult, hne]⟩

/-- Solver output for the infeasible witness instance. -/
def wOutBad : SolverOutput 1 := ⟨Status.infeasible, ![0], 0⟩

/-- Witness for C5: on the one-requirement instance with zero coverage
and target 1, the status `infeasible` is not optimal and the reporter
emits a failure report. -/
theorem zeroQ_not_optimal_witness :
    wOutBad.status ≠ Status.optimal ∧
      reportResult wOutBad.status wOutBad.objVal wOutBad.xval
        = Report.failure wOutBad.status :=
  zeroQ_not_optimal (m := 1) (n := 1) ![1] wOutBad (by decide) (by decide)
    (fun h => absurd h (by decide))

/-- C6: the reporter branches exactly on the solver status — on
`optimal` it reports the objective value and the integer-cast solution
vector, and on any other status it reports that failure status; in
either case it produces exactly this one report, with no retry or
fallback. -/
theorem reporter_branches {n : ℕ} (st : Status) (objVal : ℚ)
    (xval : Fin n → ℚ) :
    (st = Status.optimal →
      reportResult st objVal xval
        = Report.success objVal (List.ofFn fun i => ratTrunc (xval i))) ∧
      (st ≠ Status.optimal →
        reportResult st objVal xval = Report.failure st) := by
  constructor <;> intro h <;> simp [reportResult, h]

/-- Witness for C6: both branches of the reporter evaluated on concrete
inputs. -/
theorem reporter_branches_witness :
    reportResult Status.optimal 5 ![(2:ℚ)] = Report.success 5 [2] ∧
      reportResult Status.infeasible 5 ![(2:ℚ)]
        = Report.failure Status.infeasible := by
  constructor
  · have h := (reporter_branches Status.optimal 5 ![(2:ℚ)]).1 rfl
    have h2 : ratTrunc ((2:ℚ)) = 2 := by norm_num [ratTrunc]
    simpa [List.ofFn, h2] using h
  · exact (reporter_branches Status.infeasible 5 ![(2:ℚ)]).2 (by decide)

/-- A raw solver solution with floating-point noise: the first entry
sits slightly below 1, the second slightly above 1. -/
def noisyOne : Fin 1 → ℚ := ![9999999/10000000]

/-- C4 counterexample: with all costs equal to 1 but a raw solver
solution entry of `0.9999999`, the printed total goods count
(`astype(int)` truncates it to 0) differs from the printed total cost
(computed from the raw value). -/
theorem totals_counterexample :
    (∀ i, (![1] : Fin 1 → ℤ) i = 1) ∧
      (totalGoods noisyOne : ℚ) ≠ totalCost ![1] noisyOne := by
  constructor
  · intro i
    fin_cases i
    rfl
  · simp only [totalGoods, totalCost, noisyOne, Fin.sum_univ_one]
    norm_num [ratTrunc]

/-- C4 (amended): if every cost is 1 and every entry of the solver's
solution vector is an exact integer, the printed total goods count
equals the printed total cost. -/
theorem totals_match_unit_cost {n : ℕ} (cost : Fin n → ℤ)
    (xval : Fin n → ℚ) (hc : ∀ i, cost i = 1)
    (hint : ∀ i, ∃ z : ℤ, xval i = (z : ℚ)) :
    (totalGoods xval : ℚ) = totalCost cost xval := by
  unfold totalGoods totalCost
  push_cast
  refine Finset.sum_congr rfl fun i _ => ?_
  obtain ⟨z, hz⟩ := hint i
  rw [hc i, hz, ratTrunc_intCast]
  push_cast
  ring

/-- Witness for C4 (amended): unit costs with the exact integer solution
`x = [2]` give total goods count 2 and total cost 2. -/
theorem totals_match_unit_cost_witness :
    (totalGoods (![2] : Fin 1 → ℚ) : ℚ) = totalCost ![1] ![2] :=
  totals_match_unit_cost ![1] ![2] (fun i => by fin_cases i; rfl)
    (fun i => ⟨2, by fin_cases i; norm_num⟩)

/-! ### Parameter generator, embedded from the source

Source cell:
  C = np.random.randint(1,10,i)
  Q = np.random.choice([0,1,2], (j,i))
  m = np.random.randint(1,100,(j))

`np.random.randint(lo, hi)` draws uniformly from `[lo, hi)`; it is
embedded as `lo + u % (hi - lo)` over an arbitrary raw draw `u`, and
`np.random.choice([0,1,2])` as `u % 3`. -/

/-- `np.random.randint(lo, hi)` applied to a raw draw `u`. -/
def randint (lo hi : ℕ) (u : ℕ) : ℕ := lo + u % (hi - lo)

/-- `np.random.choice([0,1,2])` applied to a raw draw `u`. -/
def choiceZeroOneTwo (u : ℕ) : ℕ := u % 3

/-- The generated cost vector `C = np.random.randint(1,10,i)`. -/
def genCost (n : ℕ) (u : ℕ → ℕ) : List ℕ :=
  List.ofFn fun i : Fin n => randint 1 10 (u i)

/-- The generated coverage matrix `Q = np.random.choice([0,1,2], (j,i))`. -/
def genQ (m n : ℕ) (u : ℕ → ℕ → ℕ) : List (List ℕ) :=
  List.ofFn fun j : Fin m => List.ofFn fun i : Fin n => choiceZeroOneTwo (u j i)

/-- The generated target vector `m = np.random.randint(1,100,(j))`. -/
def genTarget (m : ℕ) (u : ℕ → ℕ) : List ℕ :=
  List.ofFn fun j : Fin m => randint 1 100 (u j)

/-- C7: whatever the raw random draws, the generator produces exactly N
costs, each a positive integer in the bounded range [1,9]; an M×N
coverage matrix with every entry in {0,1,2} (hence non-negative); and
exactly M targets, each a positive integer in the bounded range [1,99]. -/
theorem generator_contract (n m : ℕ) (u₁ : ℕ → ℕ) (u₂ : ℕ → ℕ → ℕ)
    (u₃ : ℕ → ℕ) :
    ((genCost n u₁).length = n ∧ ∀ c ∈ genCost n u₁, 1 ≤ c ∧ c ≤ 9) ∧
      ((genQ m n u₂).length = m ∧ (∀ row ∈ genQ m n u₂, row.length = n) ∧
        ∀ row ∈ genQ m n u₂, ∀ q ∈ row, q = 0 ∨ q = 1 ∨ q = 2) ∧
      ((genTarget m u₃).length = m ∧ ∀ t ∈ genTarget m u₃, 1 ≤ t ∧ t ≤ 99) := by
  refine ⟨⟨by simp [genCost], ?_⟩, ⟨by simp [genQ], ?_, ?_⟩,
    ⟨by simp [genTarget], ?_⟩⟩
  · intro c hc
    simp only [genCost, List.mem_ofFn] at hc
    obtain ⟨i, hi⟩ := hc
    have := Nat.mod_lt (u₁ i) (show 0 < 10 - 1 by norm_num)
    simp only [randint] at hi
    omega
  · intro row hrow
    simp only [genQ, List.mem_ofFn] at hrow
    obtain ⟨j, hj⟩ := hrow
    simp [← hj]
  · intro row hrow q hq
    simp only [genQ, List.mem_ofFn] at hrow
    obtain ⟨j, hj⟩ := hrow
    rw [← hj] at hq
    simp only [List.mem_ofFn] at hq
    obtain ⟨i, hi⟩ := hq
    have := Nat.mod_lt (u₂ j i) (show 0 < 3 by norm_num)
    simp only [choiceZeroOneTwo] at hi
    omega
  · intro t ht
    simp only [genTarget, List.mem_ofFn] at ht
    obtain ⟨j, hj⟩ := ht
    have := Nat.mod_lt (u₃ j) (show 0 < 100 - 1 by norm_num)
    simp only [randint] at hj
    omega

/-- A noisy two-entry raw solver solution: `[0.9999999, 1.0000001]`,
entries close to 1 from below and above. -/
def noisyX : Fin 2 → ℚ := ![9999999/10000000, 10000001/10000000]

/-- Coverage matrix of the truncation-discrepancy instance. -/
def nQ : Matrix (Fin 1) (Fin 2) ℤ := !![1,1]

/-- Target of the truncation-discrepancy instance. -/
def nTarget : Fin 1 → ℤ := ![2]

/-- C10: the reporter computes the printed fulfilled-requirement vector
and total cost from the raw solver solution, but displays the solution
and total goods count after truncation toward zero; on the noisy output
`[0.9999999, 1.0000001]` every printed fulfilled entry meets its target
while `Q` times the displayed truncated vector falls below the target. -/
theorem truncation_discrepancy :
    fulfilled nQ noisyX 0 = 2 ∧
      (∀ j, (nTarget j : ℚ) ≤ fulfilled nQ noisyX j) ∧
      totalCost ![1,1] noisyX = 2 ∧
      displayedSolution noisyX = ![0, 1] ∧
      totalGoods noisyX = 1 ∧
      nQ.mulVec (displayedSolution noisyX) 0 < nTarget 0 := by
  have hd : displayedSolution noisyX = ![0, 1] := by
    funext i
    fin_cases i <;>
      norm_num [displayedSolution, noisyX, ratTrunc]
  have hf : fulfilled nQ noisyX 0 = 2 := by
    simp only [fulfilled, nQ, noisyX, Fin.sum_univ_two]
    norm_num
  refine ⟨hf, ?_, ?_, hd, ?_, ?_⟩
  · intro j
    rw [Fin.eq_zero j, hf]
    norm_num [nTarget]
  · simp only [totalCost, noisyX, Fin.sum_univ_two]
    norm_num
  · simp only [totalGoods, noisyX, Fin.sum_univ_two]
    norm_num [ratTrunc]
  · rw [hd]
    simp only [Matrix.mulVec, Matrix.dotProduct, nQ, nTarget, Fin.sum_univ_two]
    norm_num

end Shopping
